import Mathlib

/-!
Shallow embedding of the bitmap-transform core of the ImageIOLibrary plugin
(`Source/ImageIOLibrary/Private/ImageIOLibraryBPLibrary.cpp`), together with
theorems settling the frozen claims about its specification.

Modelling conventions:
* `FColor` (four `uint8` channels) is a structure of four `Nat` fields; the
  `uint8` range constraint is expressed by the predicate `FColor.InByte`
  where a theorem needs it.
* `float`/`double` arithmetic is modelled over `ℚ`, with numeric literals
  taken verbatim from the source text.  Every concrete computation that
  decides a claim below is far from any rounding boundary, so exact rational
  arithmetic and IEEE arithmetic truncate/floor to the same integers there.
* The one place where IEEE special values matter — `Divide_Bitmap` dividing
  by a zero channel — is modelled by `EFloat` (`ℚ` extended with `inf`,
  `ninf`, `nan`) whose comparison mirrors IEEE `<` (any comparison with
  `nan` is false), so that Unreal's branch-based
  `Clamp(X,Min,Max) = X<Min?Min:(X<Max?X:Max)` is reproduced exactly.
* fixed-width integer casts: the C++ `float`-to-`uint8` conversion
  (truncation toward zero, then the low byte as on x86) is `byteOfFloat`.
-/

namespace ImageIO

/-- FColor: four 8-bit colour channels (R, G, B, A), modelled as `Nat`s. -/
structure FColor where
  r : Nat
  g : Nat
  b : Nat
  a : Nat
deriving DecidableEq, Repr

/-- InByte: the `uint8` range constraint on the four channels, which the C++
type system enforces on every `FColor` but the `Nat` model does not. -/
def FColor.InByte (p : FColor) : Prop :=
  p.r ≤ 255 ∧ p.g ≤ 255 ∧ p.b ≤ 255 ∧ p.a ≤ 255

instance (p : FColor) : Decidable p.InByte := by
  unfold FColor.InByte; infer_instance

/-- FMath::Clamp on rationals: `X < Min ? Min : (X < Max ? X : Max)`. -/
def qClamp (x lo hi : ℚ) : ℚ :=
  if x < lo then lo else if x < hi then x else hi

/-- FMath::Clamp on (machine) integers, same branch structure. -/
def iClamp (x lo hi : Int) : Int :=
  if x < lo then lo else if x < hi then x else hi

/-- Truncation of a rational toward zero, as the C++ float-to-int
conversion does for in-range values. -/
def ratTrunc (q : ℚ) : Int :=
  if q < 0 then ⌈q⌉ else ⌊q⌋

/-- Conversion of a float value to `uint8` (truncate toward zero, take the
low byte, as the generated x86 code does). -/
def byteOfFloat (q : ℚ) : Nat :=
  ((ratTrunc q) % 256).toNat

/-- FMath::GetMappedRangeValueClamped: map `v` from `[inLo, inHi]` to
`[outLo, outHi]`, clamping the interpolation parameter into `[0, 1]`. -/
def getMappedRangeValueClamped (inLo inHi outLo outHi v : ℚ) : ℚ :=
  outLo + qClamp ((v - inLo) / (inHi - inLo)) 0 1 * (outHi - outLo)

/-- tempBrightness: the local additive offset of SetBitmapBrightness,
mapping Brightness in [0,2] to [-255,255]. -/
def tempBrightness (Brightness : ℚ) : ℚ :=
  getMappedRangeValueClamped 0 2 (-255) 255 Brightness

/-- SetBitmapBrightness: each of R, G, B is offset by `tempBrightness` and
clamped to [0,255]; the result is rebuilt with the three-argument FColor
constructor (whose alpha defaults to 255). -/
def SetBitmapBrightness (Bitmap : List FColor) (Brightness : ℚ) : List FColor :=
  Bitmap.map fun pixel =>
    { r := byteOfFloat (qClamp ((pixel.r : ℚ) + tempBrightness Brightness) 0 255)
      g := byteOfFloat (qClamp ((pixel.g : ℚ) + tempBrightness Brightness) 0 255)
      b := byteOfFloat (qClamp ((pixel.b : ℚ) + tempBrightness Brightness) 0 255)
      a := 255 }

/-- tempContrast: the local offset of SetBitmapContrast, mapping Contrast
in [0,2] to [-255,255]. -/
def tempContrast (Contrast : ℚ) : ℚ :=
  getMappedRangeValueClamped 0 2 (-255) 255 Contrast

/-- contrastFactor: `(259.0 * (tempContrast + 255.0)) / (255.0 * (259.0 -
tempContrast))`. -/
def contrastFactor (Contrast : ℚ) : ℚ :=
  (259 * (tempContrast Contrast + 255)) / (255 * (259 - tempContrast Contrast))

/-- SetBitmapContrast: applies `factor*(c-128)+128` clamped to [0,255] to
each of R, G, B; alpha again defaults to 255 via the three-argument FColor
constructor. -/
def SetBitmapContrast (Bitmap : List FColor) (Contrast : ℚ) : List FColor :=
  Bitmap.map fun pixel =>
    { r := byteOfFloat (qClamp (contrastFactor Contrast * ((pixel.r : ℚ) - 128) + 128) 0 255)
      g := byteOfFloat (qClamp (contrastFactor Contrast * ((pixel.g : ℚ) - 128) + 128) 0 255)
      b := byteOfFloat (qClamp (contrastFactor Contrast * ((pixel.b : ℚ) - 128) + 128) 0 255)
      a := 255 }

/-- FColor::operator+= : per-channel clamped addition, all four channels. -/
def addPixelSum (p q : FColor) : FColor :=
  { r := min (p.r + q.r) 255
    g := min (p.g + q.g) 255
    b := min (p.b + q.b) 255
    a := min (p.a + q.a) 255 }

/-- Per-pixel body of Add_Bitmap.  The source condition is the chained
comparison `BitmapA[i].A == BitmapB[i].A == 0`, which C++ parses as
`(A == B) == 0`: the bool of the first comparison, promoted to int, is
compared with 0.  That is embedded verbatim here. -/
def addPixel (p q : FColor) : FColor :=
  if (if p.a = q.a then (1 : Nat) else 0) = 0 then
    { r := 0, g := 0, b := 0, a := 0 }
  else
    addPixelSum p q

/-- Add_Bitmap: if both inputs are non-empty, combine the first
`min(lenA, lenB)` pixel pairs with `addPixel`; otherwise return the empty
bitmap. -/
def Add_Bitmap (BitmapA BitmapB : List FColor) : List FColor :=
  if 0 < BitmapA.length ∧ 0 < BitmapB.length then
    List.zipWith addPixel BitmapA BitmapB
  else
    []

/-- sRGBToLinearTable: the 256-entry float table used by the engine's
FColor-to-FLinearColor conversion; entry c is `cs/12.92` for
`cs = c/255 ≤ 0.04045` and `((cs+0.055)/1.055)^2.4` otherwise, written out
to the same precision as the engine source. -/
def sRGBToLinearTable : List ℚ :=
  [
  0, 0.000303526983548838, 0.000607053967097675, 0.000910580950646512,
  0.00121410793419535, 0.00151763491774419, 0.00182116190129302, 0.00212468888484186,
  0.0024282158683907, 0.00273174285193954, 0.00303526983548837, 0.00334653576389916,
  0.00367650732404744, 0.00402471701849631, 0.00439144203741029, 0.00477695348069373,
  0.00518151670233839, 0.00560539162420272, 0.00604883302285705, 0.00651209079259448,
  0.00699541018726539, 0.00749903204322618, 0.00802319298538499, 0.00856812561806931,
  0.00913405870222079, 0.00972121732023785, 0.0103298230296269, 0.0109600940064882,
  0.0116122451797439, 0.0122864883569159, 0.012983032342173, 0.0137020830472897,
  0.0144438435960925, 0.0152085144229127, 0.0159962933655096, 0.0168073757528874,
  0.0176419544883841, 0.0185002201283797, 0.0193823609569357, 0.0202885630566524,
  0.0212190103760036, 0.0221738847933874, 0.0231533661781104, 0.0241576324485048,
  0.0251868596273616, 0.0262412218948499, 0.0273208916390749, 0.0284260395044208,
  0.0295568344378088, 0.0307134437329936, 0.0318960330730115, 0.0331047665708851,
  0.0343398068086822, 0.0356013148750203, 0.0368894504011, 0.0382043715953465,
  0.0395462352767328, 0.0409151969068532, 0.0423114106208097, 0.0437350292569735,
  0.0451862043856755, 0.0466650863368801, 0.0481718242268894, 0.0497065659841272,
  0.0512694583740432, 0.0528606470231802, 0.0544802764424424, 0.0561284900496001,
  0.0578054301910672, 0.0595112381629812, 0.0612460542316176, 0.0630100176531677,
  0.0648032666929058, 0.0666259386437729, 0.0684781698444002, 0.0703600956965959,
  0.0722718506823175, 0.0742135683801496, 0.0761853814813079, 0.0781874218051863,
  0.0802198203144683, 0.0822827071298148, 0.0843762115441488, 0.0865004620365498,
  0.0886555862857729, 0.0908417111834077, 0.0930589628466875, 0.0953074666309647,
  0.0975873471418625, 0.0998987282471139, 0.102241733088101, 0.104616484091104,
  0.107023102978268, 0.109461710778299, 0.111932427836906, 0.114435373826974,
  0.116970667758511, 0.119538427988346, 0.122138772229602, 0.12477181756095,
  0.127437680435647, 0.130136476690364, 0.132868321553818, 0.135633329655206,
  0.138431615032452, 0.141263291140272, 0.144128470858058, 0.147027266497595,
  0.149959789810609, 0.15292615199615, 0.155926463707827, 0.15896083506088,
  0.162029375639111, 0.165132194501668, 0.168269400189691, 0.171441100732823,
  0.174647403655585, 0.177888415983629, 0.18116424424986, 0.184474994500441,
  0.187820772300678, 0.191201682740791, 0.194617830441576, 0.198069319559949,
  0.201556253794397, 0.205078736390317, 0.208636870145256, 0.212230757414055,
  0.215860500113899, 0.219526199729269, 0.223227957316809, 0.226965873510098,
  0.230740048524349, 0.234550582161005, 0.238397573812271, 0.242281122465555,
  0.246201326707835, 0.250158284729953, 0.254152094330827, 0.258182852921596,
  0.262250657529696, 0.266355604802862, 0.270497791013066, 0.274677312060385,
  0.27889426347681, 0.283148740429992, 0.287440837726917, 0.291770649817536,
  0.296138270798321, 0.300543794415776, 0.304987314069886, 0.309468922817509,
  0.313988713375718, 0.318546778125092, 0.323143209112951, 0.327778098056542,
  0.332451536346179, 0.33716361504833, 0.341914424908661, 0.34670405635503,
  0.351532599500439, 0.356400144145944, 0.36130677978351, 0.366252595598839,
  0.371237680474149, 0.376262122990907, 0.38132601143253, 0.386429433787049,
  0.391572477749723, 0.396755230725627, 0.401977779832196, 0.407240211901737,
  0.412542613483904, 0.417885070848137, 0.423267669986072, 0.428690496613907,
  0.434153636174749, 0.439657173840919, 0.445201194516228, 0.450785782838223,
  0.456411023180405, 0.462076999654407, 0.467783796112159, 0.47353149614801,
  0.479320183100827, 0.48514994005607, 0.491020849847836, 0.49693299506087,
  0.502886458032569, 0.508881320854934, 0.514917665376521, 0.520995573204354,
  0.527115125705813, 0.533276404010505, 0.539479489012107, 0.545724461370187,
  0.552011401512, 0.558340389634268, 0.564711505704929, 0.571124829464873,
  0.577580440429651, 0.584078417891164, 0.590618840919337, 0.597201788363763,
  0.603827338855338, 0.610495570807865, 0.617206562419651, 0.623960391675076,
  0.630757136346147, 0.637596873994033, 0.644479681970582, 0.651405637419824,
  0.658374817279448, 0.665387298282272, 0.672443156957688, 0.679542469633094,
  0.686685312435313, 0.69387176129199, 0.701101891932973, 0.708375779891687,
  0.715693500506481, 0.723055128921969, 0.730460740090354, 0.737910408772731,
  0.745404209540387, 0.752942216776078, 0.760524504675292, 0.768151147247507,
  0.775822218317424, 0.783537791526194, 0.79129794033263, 0.799102738014409,
  0.806952257669252, 0.814846572216101, 0.822785754396284, 0.830769876774655,
  0.83879901174074, 0.846873231509858, 0.854992608124234, 0.863157213454102,
  0.871367119198797, 0.879622396887832, 0.887923117881966, 0.896269353374266,
  0.90466117439115, 0.913098651793419, 0.921581856277295, 0.930110858375424,
  0.938685728457888, 0.9473065367332, 0.955973353249286, 0.964686247894465,
  0.973445290398413, 0.982250550333117, 0.99110209711383, 1
  ]

/-- srgbToLin: table lookup performed by the FColor-to-FLinearColor
conversion on each colour channel (a `uint8`, so always in range in C++). -/
def srgbToLin (c : Nat) : ℚ :=
  sRGBToLinearTable.getD c 0

/-- FLinearColor: four float channels, nominally in [0,1]. -/
structure FLinearColor where
  r : ℚ
  g : ℚ
  b : ℚ
  a : ℚ
deriving DecidableEq, Repr

/-- FLinearColor(const FColor&): sRGB-table conversion of R, G, B and
linear scaling of alpha by 1/255. -/
def linearOfColor (p : FColor) : FLinearColor :=
  { r := srgbToLin p.r
    g := srgbToLin p.g
    b := srgbToLin p.b
    a := (p.a : ℚ) / 255 }

/-- FMath::FloorToInt followed by the implicit int-to-uint8 conversion
(the values produced below are always in [0,255], so the low byte is the
value itself). -/
def floorByte (q : ℚ) : Nat :=
  ((⌊q⌋ : Int) % 256).toNat

/-- FLinearColor::ToFColor(false): clamp each channel to [0,1], scale by
255.999 and floor. -/
def toFColorFalse (c : FLinearColor) : FColor :=
  { r := floorByte (qClamp c.r 0 1 * 255.999)
    g := floorByte (qClamp c.g 0 1 * 255.999)
    b := floorByte (qClamp c.b 0 1 * 255.999)
    a := floorByte (qClamp c.a 0 1 * 255.999) }

/-- Per-pixel body of Multiply_Bitmap: convert both pixels to FLinearColor,
multiply channel-wise, clamp to [0,1], convert back with ToFColor(false). -/
def mulPixel (x y : FColor) : FColor :=
  let A := linearOfColor x
  let B := linearOfColor y
  toFColorFalse
    { r := qClamp (A.r * B.r) 0 1
      g := qClamp (A.g * B.g) 0 1
      b := qClamp (A.b * B.b) 0 1
      a := qClamp (A.a * B.a) 0 1 }

/-- Multiply_Bitmap: same loop shape as Add_Bitmap with `mulPixel`. -/
def Multiply_Bitmap (BitmapA BitmapB : List FColor) : List FColor :=
  if 0 < BitmapA.length ∧ 0 < BitmapB.length then
    List.zipWith mulPixel BitmapA BitmapB
  else
    []

/-- EFloat: a float value as relevant to Divide_Bitmap — either a finite
value (exact rational) or one of the IEEE special values produced by
dividing by zero. -/
inductive EFloat where
  | fin (q : ℚ)
  | inf
  | ninf
  | nan
deriving DecidableEq, Repr

/-- IEEE division of two finite float values, keeping track of the special
results for a zero divisor. -/
def efDiv (a b : ℚ) : EFloat :=
  if b = 0 then
    if a = 0 then .nan else if 0 < a then .inf else .ninf
  else
    .fin (a / b)

/-- IEEE `<` on EFloat: any comparison involving NaN is false. -/
def efLt (x y : EFloat) : Bool :=
  match x, y with
  | .nan, _ => false
  | _, .nan => false
  | .ninf, .ninf => false
  | .ninf, _ => true
  | _, .ninf => false
  | .inf, _ => false
  | .fin _, .inf => true
  | .fin p, .fin q => decide (p < q)

/-- FMath::Clamp evaluated on an EFloat with finite bounds, with the exact
branch structure `X < Min ? Min : (X < Max ? X : Max)`.  Note that both
`nan` and `inf` fail both comparisons and therefore come out as `Max`. -/
def efClamp (x : EFloat) (lo hi : ℚ) : EFloat :=
  if efLt x (.fin lo) then .fin lo else if efLt x (.fin hi) then x else .fin hi

/-- Finite value of an EFloat.  It is only ever applied right after
`efClamp`, whose result is always finite; the default for the unreachable
non-finite cases is 0. -/
def efVal (x : EFloat) : ℚ :=
  match x with
  | .fin q => q
  | _ => 0

/-- Per-channel body of Divide_Bitmap:
`FMath::Clamp(A.ch / B.ch, 0.0f, 1.0f)`. -/
def divChannel (a b : ℚ) : ℚ :=
  efVal (efClamp (efDiv a b) 0 1)

/-- Per-pixel body of Divide_Bitmap: convert both pixels to FLinearColor,
divide channel-wise with clamping, convert back with ToFColor(false). -/
def divPixel (x y : FColor) : FColor :=
  let A := linearOfColor x
  let B := linearOfColor y
  toFColorFalse
    { r := divChannel A.r B.r
      g := divChannel A.g B.g
      b := divChannel A.b B.b
      a := divChannel A.a B.a }

/-- Divide_Bitmap: same loop shape as Add_Bitmap with `divPixel`. -/
def Divide_Bitmap (BitmapA BitmapB : List FColor) : List FColor :=
  if 0 < BitmapA.length ∧ 0 < BitmapB.length then
    List.zipWith divPixel BitmapA BitmapB
  else
    []

/-- EFilterColourChannel: which channels a filter computes/preserves. -/
inductive EFilterColourChannel where
  | RGB
  | RGBA
  | R
  | G
  | B
  | A
  | Greyscale
deriving DecidableEq, Repr

/-- FImageSize: a pair of int dimensions. -/
structure FImageSize where
  X : Int
  Y : Int
deriving DecidableEq, Repr

/-- FBitmapFilter: kernel size, weight sequence, factor, bias and colour
channel mode. -/
structure FBitmapFilter where
  Size : FImageSize
  Filter : List ℚ
  Factor : ℚ
  Bias : ℚ
  ColourChannel : EFilterColourChannel
deriving DecidableEq, Repr

/-- SetPixelColourChannel: project a pixel onto the requested channel mode.
The greyscale branch computes `R*0.2989 + G*0.5870 + B*0.1140` in double
and stores it through the implicit double-to-uint8 conversion. -/
def SetPixelColourChannel (Pixel : FColor) (ColourChannel : EFilterColourChannel) :
    FColor :=
  match ColourChannel with
  | .RGB => { r := Pixel.r, g := Pixel.g, b := Pixel.b, a := 255 }
  | .RGBA => { r := Pixel.r, g := Pixel.g, b := Pixel.b, a := Pixel.a }
  | .R => { r := Pixel.r, g := 0, b := 0, a := 255 }
  | .G => { r := 0, g := Pixel.g, b := 0, a := 255 }
  | .B => { r := 0, g := 0, b := Pixel.b, a := 255 }
  | .A => { r := Pixel.a, g := Pixel.a, b := Pixel.a, a := 0 }
  | .Greyscale =>
      let grey := byteOfFloat
        ((Pixel.r : ℚ) * 0.2989 + (Pixel.g : ℚ) * 0.5870 + (Pixel.b : ℚ) * 0.1140)
      { r := grey, g := grey, b := grey, a := 255 }

/-- EBitmapFilterType: the named kernels of the library. -/
inductive EBitmapFilterType where
  | Identity
  | Sharpen
  | BoxBlur
  | Gaussian1
  | Gaussian2
  | EdgeDetection
deriving DecidableEq, Repr

/-- GetBitmapFilter: the hard-coded kernel catalogue, with the colour
channel optionally overridden. -/
def GetBitmapFilter (BitmapFilter : EBitmapFilterType)
    (OverrideColourChannel : Bool)
    (ColourChannelOverride : EFilterColourChannel) : FBitmapFilter :=
  match BitmapFilter with
  | .Identity =>
      { Size := ⟨3, 3⟩, Filter := [0, 0, 0, 0, 1, 0, 0, 0, 0], Factor := 1,
        Bias := 0,
        ColourChannel :=
          if OverrideColourChannel then ColourChannelOverride else .RGBA }
  | .BoxBlur =>
      { Size := ⟨3, 3⟩, Filter := [1, 1, 1, 1, 1, 1, 1, 1, 1],
        Factor := 0.11111111, Bias := 0,
        ColourChannel :=
          if OverrideColourChannel then ColourChannelOverride else .RGBA }
  | .Gaussian1 =>
      { Size := ⟨3, 3⟩, Filter := [1, 2, 1, 2, 4, 2, 1, 2, 1],
        Factor := 0.0625, Bias := 0,
        ColourChannel :=
          if OverrideColourChannel then ColourChannelOverride else .RGBA }
  | .Gaussian2 =>
      { Size := ⟨5, 5⟩,
        Filter := [1, 4, 6, 4, 1, 4, 16, 24, 16, 4, 6, 24, 36, 24, 6,
                   4, 16, 24, 16, 4, 1, 4, 6, 4, 1],
        Factor := 0.00390625, Bias := 0,
        ColourChannel :=
          if OverrideColourChannel then ColourChannelOverride else .RGBA }
  | .Sharpen =>
      { Size := ⟨3, 3⟩, Filter := [0, -1, 0, -1, 5, -1, 0, -1, 0], Factor := 1,
        Bias := 0,
        ColourChannel :=
          if OverrideColourChannel then ColourChannelOverride else .RGBA }
  | .EdgeDetection =>
      { Size := ⟨3, 3⟩, Filter := [-1, -1, -1, -1, 8, -1, -1, -1, -1],
        Factor := 1, Bias := 0,
        ColourChannel :=
          if OverrideColourChannel then ColourChannelOverride else .Greyscale }

/-- TArray read at a (possibly clamped) int index.  A negative index is out
of bounds in C++ (assertion failure / undefined read); both that case and a
too-large index are modelled by a default pixel, and the theorems about
index policies below track where reads actually stay in bounds. -/
def readPixel (bmp : List FColor) (idx : Int) : FColor :=
  if 0 ≤ idx then bmp.getD idx.toNat ⟨0, 0, 0, 0⟩ else ⟨0, 0, 0, 0⟩

/-- TArray read of a kernel weight at a (possibly clamped) int index, with
the same out-of-bounds modelling as `readPixel`. -/
def readWeight (ws : List ℚ) (idx : Int) : ℚ :=
  if 0 ≤ idx then ws.getD idx.toNat 0 else 0

/-- Flat index of the neighbour sampled for output pixel (X,Y) and kernel
cell (fx,fy): `Clamp(nPixelY*Size.X + nPixelX, 0, Bitmap.Num()-1)` where
`nPixelX = X + fx - filterWidth/2` and `nPixelY = Y + fy - filterHeight/2`
(int division truncating toward zero). -/
def nPixelIndex (bmpLen : Nat) (SizeX : Int) (X Y fx fy fw fh : Int) : Int :=
  iClamp ((Y + fy - Int.tdiv fh 2) * SizeX + (X + fx - Int.tdiv fw 2)) 0
    ((bmpLen : Int) - 1)

/-- Index into the weight sequence for kernel cell (fx,fy):
`Clamp(filterY*filterWidth + filterX, 0, filter.Num()-1)`. -/
def nFilterIndex (wsLen : Nat) (fw : Int) (fx fy : Int) : Int :=
  iClamp (fy * fw + fx) 0 ((wsLen : Int) - 1)

/-- Accumulation step of ApplyBitmapFilter for one channel:
`temp += pixelChannel * (weight * Factor) + Bias` where `temp` is a `uint8`
and the right-hand side is computed in float. -/
def accumStep (temp : Nat) (chan : Nat) (w factor bias : ℚ) : Nat :=
  byteOfFloat ((temp : ℚ) + ((chan : ℚ) * (w * factor) + bias))

/-- Inner double loop of ApplyBitmapFilter: accumulate the R, G, B
temporaries over all kernel cells, row by row (filterY outer, filterX
inner). -/
def convAccum (bmp : List FColor) (SizeX : Int) (F : FBitmapFilter)
    (X Y : Int) : Nat × Nat × Nat :=
  (List.range F.Size.Y.toNat).foldl
    (fun (st : Nat × Nat × Nat) (fy : Nat) =>
      (List.range F.Size.X.toNat).foldl
        (fun (st2 : Nat × Nat × Nat) (fx : Nat) =>
          let np := readPixel bmp
            (nPixelIndex bmp.length SizeX X Y (fx : Int) (fy : Int)
              F.Size.X F.Size.Y)
          let w := readWeight F.Filter
            (nFilterIndex F.Filter.length F.Size.X (fx : Int) (fy : Int))
          ( accumStep st2.1 np.r w F.Factor F.Bias,
            accumStep st2.2.1 np.g w F.Factor F.Bias,
            accumStep st2.2.2 np.b w F.Factor F.Bias ))
        st)
    (0, 0, 0)

/-- Output pixel of ApplyBitmapFilter at coordinate (X,Y): run the kernel
accumulation, take the alpha of the clamped centre pixel when the mode is
RGBA (255 otherwise), and project through SetPixelColourChannel. -/
def convPixel (bmp : List FColor) (Size : FImageSize) (F : FBitmapFilter)
    (X Y : Int) : FColor :=
  let pixelIndex := iClamp (Y * Size.X + X) 0 ((bmp.length : Int) - 1)
  let tempAlpha : Nat :=
    if F.ColourChannel = .RGBA then (readPixel bmp pixelIndex).a else 255
  let t := convAccum bmp Size.X F X Y
  SetPixelColourChannel { r := t.1, g := t.2.1, b := t.2.2, a := tempAlpha }
    F.ColourChannel

/-- ApplyBitmapFilter: loop over all (X,Y) of the image row by row and
place each computed pixel with `EmplaceAt` (an insertion) at the clamped
flat index `Clamp(Y*Size.X + X, 0, Bitmap.Num()-1)`. -/
def ApplyBitmapFilter (Bitmap : List FColor) (Size : FImageSize)
    (Filter : FBitmapFilter) : List FColor :=
  (List.range Size.Y.toNat).foldl
    (fun (out : List FColor) (Y : Nat) =>
      (List.range Size.X.toNat).foldl
        (fun (out2 : List FColor) (X : Nat) =>
          let pixelIndex :=
            iClamp ((Y : Int) * Size.X + (X : Int)) 0 ((Bitmap.length : Int) - 1)
          out2.insertIdx pixelIndex.toNat
            (convPixel Bitmap Size Filter (X : Int) (Y : Int)))
        out)
    []

/-- Weight-sequence indices read while computing any one output pixel (the
same set for every pixel, since `nFilterIndex` does not depend on the pixel
position). -/
def weightIndicesAccessed (F : FBitmapFilter) : List Int :=
  (List.range F.Size.Y.toNat).flatMap
    (fun fy : Nat =>
      (List.range F.Size.X.toNat).map
        (fun fx : Nat => nFilterIndex F.Filter.length F.Size.X (fx : Int) (fy : Int)))

/-- Output pixel of ApplyBitmapFilter on a bitmap all of whose pixels equal
`c`: the kernel accumulation reads the value `c` at every (clamped) tap, so
the position drops out.  Used to state the amended flat-field property. -/
def uniformConvPixel (c : FColor) (F : FBitmapFilter) : FColor :=
  let t := (List.range F.Size.Y.toNat).foldl
    (fun (st : Nat × Nat × Nat) (fy : Nat) =>
      (List.range F.Size.X.toNat).foldl
        (fun (st2 : Nat × Nat × Nat) (fx : Nat) =>
          let w := readWeight F.Filter
            (nFilterIndex F.Filter.length F.Size.X (fx : Int) (fy : Int))
          ( accumStep st2.1 c.r w F.Factor F.Bias,
            accumStep st2.2.1 c.g w F.Factor F.Bias,
            accumStep st2.2.2 c.b w F.Factor F.Bias ))
        st)
    (0, 0, 0)
  SetPixelColourChannel
    { r := t.1, g := t.2.1, b := t.2.2,
      a := if F.ColourChannel = .RGBA then c.a else 255 } F.ColourChannel

/-! Helper lemmas. -/

theorem iClamp_eq_self {x lo hi : Int} (h1 : lo ≤ x) (h2 : x ≤ hi) :
    iClamp x lo hi = x := by
  unfold iClamp
  split_ifs <;> omega

theorem iClamp_bounds {x lo hi : Int} (h : lo ≤ hi) :
    lo ≤ iClamp x lo hi ∧ iClamp x lo hi ≤ hi := by
  unfold iClamp
  split_ifs <;> omega

theorem flatIdx_lt {x y W H : Nat} (hx : x < W) (hy : y < H) :
    y * W + x < H * W := by
  calc y * W + x < y * W + W := by omega
  _ = (y + 1) * W := by ring
  _ ≤ H * W := Nat.mul_le_mul_right W hy

theorem readPixel_replicate {N : Nat} {c : FColor} {idx : Int}
    (h0 : 0 ≤ idx) (h1 : idx < (N : Int)) :
    readPixel (List.replicate N c) idx = c := by
  unfold readPixel
  rw [if_pos h0]
  have hlt : idx.toNat < N := by omega
  rw [List.getD_eq_getElem _ _ (by simpa using hlt), List.getElem_replicate]

theorem qClamp_eq_self {x lo hi : ℚ} (h1 : lo ≤ x) (h2 : x ≤ hi) :
    qClamp x lo hi = x := by
  unfold qClamp
  split_ifs with ha hb
  · linarith
  · rfl
  · linarith

theorem qClamp_nonneg_le {x lo hi : ℚ} (h0 : lo ≤ hi) :
    lo ≤ qClamp x lo hi ∧ qClamp x lo hi ≤ hi := by
  unfold qClamp
  split_ifs with ha hb
  · exact ⟨le_refl _, h0⟩
  · exact ⟨not_lt.1 ha, le_of_lt hb⟩
  · exact ⟨h0, le_refl _⟩

theorem byteOfFloat_natCast {n : Nat} (h : n ≤ 255) : byteOfFloat (n : ℚ) = n := by
  unfold byteOfFloat ratTrunc
  rw [if_neg (not_lt.2 (by positivity)), Int.floor_natCast,
    Int.emod_eq_of_lt (Int.ofNat_nonneg n) (by exact_mod_cast Nat.lt_succ_of_le h),
    Int.toNat_natCast]

theorem floorByte_le_255 {q : ℚ} (h0 : 0 ≤ q) (h1 : q ≤ 1) :
    floorByte (q * 255.999) ≤ 255 := by
  unfold floorByte
  have hfl : (0 : Int) ≤ ⌊q * 255.999⌋ := by
    apply Int.floor_nonneg.2; positivity
  have hub : ⌊q * 255.999⌋ < 256 := by
    apply Int.floor_lt.2
    push_cast
    nlinarith
  rw [Int.emod_eq_of_lt hfl (by omega)]
  omega

theorem floorByte_alpha_roundtrip {a : Nat} (h : a ≤ 255) :
    floorByte ((a : ℚ) / 255 * 255.999) = a := by
  unfold floorByte
  have hq : (255.999 : ℚ) = 255999 / 1000 := by norm_num
  have hfl : ⌊(a : ℚ) / 255 * 255.999⌋ = (a : Int) := by
    rw [Int.floor_eq_iff]
    constructor
    · rw [hq]
      rw [div_mul_div_comm, le_div_iff₀ (by norm_num)]
      push_cast
      nlinarith [Nat.cast_nonneg (α := ℚ) a]
    · rw [hq]
      rw [div_mul_div_comm, div_lt_iff₀ (by norm_num)]
      push_cast
      have : (a : ℚ) ≤ 255 := by exact_mod_cast h
      nlinarith
  rw [hfl, Int.emod_eq_of_lt (Int.ofNat_nonneg a) (by omega), Int.toNat_natCast]

theorem srgbToLin_zero : srgbToLin 0 = 0 := by decide

theorem srgbToLin_255 : srgbToLin 255 = 1 := by decide

/-- Generic length/emptiness behaviour of the three blend loops. -/
theorem blendLoop_length (f : FColor → FColor → FColor) (A B : List FColor) :
    (if 0 < A.length ∧ 0 < B.length then List.zipWith f A B else []).length
      = min A.length B.length := by
  split_ifs with h
  · exact List.length_zipWith ..
  · simp only [List.length_nil]
    omega

theorem zipWith_replicate_len (f : FColor → FColor → FColor) (c : FColor) :
    ∀ A : List FColor, List.zipWith f A (List.replicate A.length c)
      = A.map (fun p => f p c) := by
  intro A
  induction A with
  | nil => rfl
  | cons x xs ih => simpa [List.replicate_succ] using ih

/-- The nonemptiness test around the blend loops is redundant: if either
input is empty, the zipWith is empty as well. -/
theorem blendLoop_eq_zipWith (f : FColor → FColor → FColor) (A B : List FColor) :
    (if 0 < A.length ∧ 0 < B.length then List.zipWith f A B else [])
      = List.zipWith f A B := by
  split_ifs with h
  · rfl
  · have h1 : A.length = 0 ∨ B.length = 0 := by omega
    rcases h1 with h1 | h1
    · rw [List.length_eq_zero.1 h1]
      rfl
    · rw [List.length_eq_zero.1 h1, List.zipWith_nil_right]

theorem Add_Bitmap_eq_zipWith (A B : List FColor) :
    Add_Bitmap A B = List.zipWith addPixel A B :=
  blendLoop_eq_zipWith addPixel A B

theorem Multiply_Bitmap_eq_zipWith (A B : List FColor) :
    Multiply_Bitmap A B = List.zipWith mulPixel A B :=
  blendLoop_eq_zipWith mulPixel A B

theorem Divide_Bitmap_eq_zipWith (A B : List FColor) :
    Divide_Bitmap A B = List.zipWith divPixel A B :=
  blendLoop_eq_zipWith divPixel A B

theorem map_id_of_mem {l : List FColor} {f : FColor → FColor}
    (h : ∀ p ∈ l, f p = p) : l.map f = l := by
  induction l with
  | nil => rfl
  | cons x xs ih =>
      rw [List.map_cons, h x (List.mem_cons_self x xs),
        ih (fun p hp => h p (List.mem_cons_of_mem x hp))]

theorem mem_zipWith_imp {f : FColor → FColor → FColor} :
    ∀ {A B : List FColor} {p : FColor}, p ∈ List.zipWith f A B →
      ∃ x y, p = f x y := by
  intro A
  induction A with
  | nil =>
      intro B p h
      simp at h
  | cons x xs ih =>
      intro B p h
      cases B with
      | nil => simp at h
      | cons y ys =>
          rw [List.zipWith_cons_cons] at h
          rcases List.mem_cons.1 h with h | h
          · exact ⟨x, y, h⟩
          · exact ih h

/-- Clamping is idempotent. -/
theorem qClamp_idem (x lo hi : ℚ) (h : lo ≤ hi) :
    qClamp (qClamp x lo hi) lo hi = qClamp x lo hi :=
  qClamp_eq_self (qClamp_nonneg_le h).1 (qClamp_nonneg_le h).2

/-- addPixel against the zero pixel is the identity on pixels whose alpha
is 0 (with that alpha, the inverted special case does not fire). -/
theorem addPixel_zeroId (p : FColor) (hb : p.InByte) (ha : p.a = 0) :
    addPixel p ⟨0, 0, 0, 0⟩ = p := by
  obtain ⟨pr, pg, pb, pa⟩ := p
  obtain ⟨h1, h2, h3, _⟩ := hb
  simp only at ha
  unfold addPixel addPixelSum
  rw [if_neg]
  · dsimp only at h1 h2 h3 ⊢
    simp only [FColor.mk.injEq]
    omega
  · simp [ha]

/-- mulPixel against the all-255 pixel is the identity on pixels whose R,
G, B channels are 0 or 255 (fixed points of the sRGB-in/linear-out round
trip) and whose alpha is a byte. -/
theorem mulPixel_onesId (p : FColor)
    (hr : p.r = 0 ∨ p.r = 255) (hg : p.g = 0 ∨ p.g = 255)
    (hb : p.b = 0 ∨ p.b = 255) (ha : p.a ≤ 255) :
    mulPixel p ⟨255, 255, 255, 255⟩ = p := by
  have chan : ∀ n : Nat, n = 0 ∨ n = 255 →
      floorByte (qClamp (srgbToLin n * srgbToLin 255) 0 1 * 255.999) = n := by
    intro n hn
    rw [srgbToLin_255, mul_one]
    rcases hn with hn | hn <;> subst hn
    · rw [srgbToLin_zero]
      norm_num [qClamp, floorByte]
    · rw [srgbToLin_255]
      norm_num [qClamp, floorByte]
      rfl
  have alph : floorByte (qClamp ((p.a : ℚ) / 255 * (((255 : Nat) : ℚ) / 255)) 0 1
      * 255.999) = p.a := by
    have h255 : (((255 : Nat) : ℚ) / 255) = 1 := by norm_num
    have hle : (p.a : ℚ) / 255 ≤ 1 := by
      rw [div_le_one (by norm_num)]
      exact_mod_cast ha
    rw [h255, mul_one, qClamp_eq_self (by positivity) hle,
      floorByte_alpha_roundtrip ha]
  simp only [mulPixel, linearOfColor, toFColorFalse]
  rw [qClamp_idem _ _ _ (by norm_num), qClamp_idem _ _ _ (by norm_num),
    qClamp_idem _ _ _ (by norm_num), qClamp_idem _ _ _ (by norm_num),
    chan _ hr, chan _ hg, chan _ hb, alph]

theorem addPixel_comm (p q : FColor) : addPixel p q = addPixel q p := by
  unfold addPixel
  have e1 : (if p.a = q.a then (1 : Nat) else 0) =
      (if q.a = p.a then (1 : Nat) else 0) := by
    by_cases hpq : p.a = q.a
    · rw [if_pos hpq, if_pos hpq.symm]
    · rw [if_neg hpq, if_neg (fun hh => hpq hh.symm)]
  rw [e1]
  split_ifs with hc
  all_goals first
  | rfl
  | · unfold addPixelSum
      simp only [FColor.mk.injEq]
      omega

theorem brightness_neutral_offset : tempBrightness 1 = 0 := by
  unfold tempBrightness getMappedRangeValueClamped qClamp
  norm_num

theorem contrast_neutral_factor : contrastFactor 1 = 1 := by
  unfold contrastFactor tempContrast getMappedRangeValueClamped qClamp
  norm_num

/-- Alpha of every pixel produced by SetBitmapBrightness is 255 (the
three-argument FColor constructor defaults it). -/
theorem alpha_forced_brightness (B : List FColor) (br : ℚ) :
    ∀ p ∈ SetBitmapBrightness B br, p.a = 255 := by
  intro p hp
  unfold SetBitmapBrightness at hp
  obtain ⟨q, _, rfl⟩ := List.mem_map.1 hp
  rfl

/-- Alpha of every pixel produced by SetBitmapContrast is 255. -/
theorem alpha_forced_contrast (B : List FColor) (ct : ℚ) :
    ∀ p ∈ SetBitmapContrast B ct, p.a = 255 := by
  intro p hp
  unfold SetBitmapContrast at hp
  obtain ⟨q, _, rfl⟩ := List.mem_map.1 hp
  rfl

/-! Claim theorems. -/

/-- C1.  The code does NOT special-case "alpha 0 in both": on the pixel pair
(10,0,0,0), (5,0,0,0), whose alphas are both exactly 0, Add_Bitmap outputs
the generic clamped sum (15,0,0,0) and not the fully zeroed pixel; the
special branch fires instead exactly when the two alphas differ (second
conjunct), because the source condition `A[i].A == B[i].A == 0` parses as
`(A[i].A == B[i].A) == 0`.  This evaluates the code at the failing input of
the claim. -/
theorem c1_add_zero_alpha_eval :
    Add_Bitmap [⟨10, 0, 0, 0⟩] [⟨5, 0, 0, 0⟩] = [⟨15, 0, 0, 0⟩] ∧
    Add_Bitmap [⟨10, 0, 0, 0⟩] [⟨5, 0, 0, 0⟩] ≠ [⟨0, 0, 0, 0⟩] ∧
    Add_Bitmap [⟨10, 20, 30, 255⟩] [⟨5, 5, 5, 0⟩] = [⟨0, 0, 0, 0⟩] := by
  refine ⟨by decide, by decide, by decide⟩

/-- C2.  Counterexample: at the neutral parameter 1.0 neither transform is
the identity — both rebuild each pixel with the three-argument FColor
constructor, so the alpha channel of (0,0,0,7) comes back as 255, not 7. -/
theorem c2_neutral_counterexample :
    SetBitmapBrightness [⟨0, 0, 0, 7⟩] 1 ≠ [⟨0, 0, 0, 7⟩] ∧
    SetBitmapContrast [⟨0, 0, 0, 7⟩] 1 ≠ [⟨0, 0, 0, 7⟩] := by
  constructor
  · intro h
    have hm : (⟨0, 0, 0, 7⟩ : FColor) ∈ SetBitmapBrightness [⟨0, 0, 0, 7⟩] 1 := by
      rw [h]; exact List.mem_singleton.2 rfl
    have := alpha_forced_brightness _ _ _ hm
    simp at this
  · intro h
    have hm : (⟨0, 0, 0, 7⟩ : FColor) ∈ SetBitmapContrast [⟨0, 0, 0, 7⟩] 1 := by
      rw [h]; exact List.mem_singleton.2 rfl
    have := alpha_forced_contrast _ _ _ hm
    simp at this

/-- C2 (amended).  At the neutral parameter 1.0 both SetBitmapBrightness and
SetBitmapContrast return the input bitmap with the R, G, B channels of every
pixel unchanged and the alpha channel of every pixel replaced by 255. -/
theorem c2_neutral_amended (B : List FColor) (h : ∀ p ∈ B, p.InByte) :
    SetBitmapBrightness B 1 = B.map (fun p => ⟨p.r, p.g, p.b, 255⟩) ∧
    SetBitmapContrast B 1 = B.map (fun p => ⟨p.r, p.g, p.b, 255⟩) := by
  have chanB : ∀ n : Nat, n ≤ 255 →
      byteOfFloat (qClamp ((n : ℚ) + tempBrightness 1) 0 255) = n := by
    intro n hn
    rw [brightness_neutral_offset, add_zero,
      qClamp_eq_self (by positivity) (by exact_mod_cast hn),
      byteOfFloat_natCast hn]
  have chanC : ∀ n : Nat, n ≤ 255 →
      byteOfFloat (qClamp (contrastFactor 1 * ((n : ℚ) - 128) + 128) 0 255) = n := by
    intro n hn
    have he : contrastFactor 1 * ((n : ℚ) - 128) + 128 = (n : ℚ) := by
      rw [contrast_neutral_factor]; ring
    rw [he, qClamp_eq_self (by positivity) (by exact_mod_cast hn),
      byteOfFloat_natCast hn]
  constructor
  · unfold SetBitmapBrightness
    apply List.map_congr_left
    intro p hp
    obtain ⟨h1, h2, h3, _⟩ := h p hp
    rw [chanB _ h1, chanB _ h2, chanB _ h3]
  · unfold SetBitmapContrast
    apply List.map_congr_left
    intro p hp
    obtain ⟨h1, h2, h3, _⟩ := h p hp
    rw [chanC _ h1, chanC _ h2, chanC _ h3]

/-- C2 (witness).  The amended identity evaluated on a concrete bitmap. -/
theorem c2_neutral_witness :
    (∀ p ∈ [(⟨3, 4, 5, 6⟩ : FColor)], p.InByte) ∧
    (SetBitmapBrightness [⟨3, 4, 5, 6⟩] 1 = [⟨3, 4, 5, 255⟩] ∧
     SetBitmapContrast [⟨3, 4, 5, 6⟩] 1 = [⟨3, 4, 5, 255⟩]) :=
  ⟨by decide, c2_neutral_amended [⟨3, 4, 5, 6⟩] (by decide)⟩

/-- C3.  Counterexample: SetBitmapBrightness does not leave alpha
unchanged — on the pixel (0,0,0,0) with brightness 1.5, the output alpha
is 255, not 0. -/
theorem c3_alpha_counterexample :
    ((SetBitmapBrightness [⟨0, 0, 0, 0⟩] 1.5).getD 0 ⟨9, 9, 9, 9⟩).a ≠
      (FColor.mk 0 0 0 0).a := by
  have hl : 0 < (SetBitmapBrightness [⟨0, 0, 0, 0⟩] 1.5).length := by
    simp [SetBitmapBrightness]
  rw [List.getD_eq_getElem _ _ hl]
  have := alpha_forced_brightness [⟨0, 0, 0, 0⟩] 1.5 _
    (List.getElem_mem (l := SetBitmapBrightness [⟨0, 0, 0, 0⟩] 1.5) hl)
  rw [this]
  simp

/-- C3 (amended).  For every input bitmap and every brightness value,
SetBitmapBrightness sets the alpha channel of every output pixel to 255
(only R, G, B are offset and clamped; the input alpha is discarded by the
three-argument FColor constructor). -/
theorem c3_alpha_amended (B : List FColor) (br : ℚ) :
    ∀ p ∈ SetBitmapBrightness B br, p.a = 255 := by
  intro p hp
  unfold SetBitmapBrightness at hp
  obtain ⟨q, _, rfl⟩ := List.mem_map.1 hp
  rfl

/-- C3 (witness).  The amended statement applied to a concrete pixel: the
first pixel SetBitmapBrightness produces from (1,2,3,4) at brightness 1.5
has alpha 255. -/
theorem c3_alpha_witness :
    ((SetBitmapBrightness [⟨1, 2, 3, 4⟩] 1.5).getD 0 ⟨9, 9, 9, 9⟩).a = 255 := by
  have hl : 0 < (SetBitmapBrightness [⟨1, 2, 3, 4⟩] 1.5).length := by
    simp [SetBitmapBrightness]
  rw [List.getD_eq_getElem _ _ hl]
  exact c3_alpha_amended [⟨1, 2, 3, 4⟩] 1.5 _
    (List.getElem_mem (l := SetBitmapBrightness [⟨1, 2, 3, 4⟩] 1.5) hl)

/-- C5.  Each of the three blends returns a bitmap of length
min(lenA, lenB); in particular, when either input is empty the output is
the empty bitmap (the source returns the untouched empty OutBitmap in that
case). -/
theorem c5_blend_lengths (A B : List FColor) :
    (Add_Bitmap A B).length = min A.length B.length ∧
    (Multiply_Bitmap A B).length = min A.length B.length ∧
    (Divide_Bitmap A B).length = min A.length B.length ∧
    (A = [] ∨ B = [] →
      Add_Bitmap A B = [] ∧ Multiply_Bitmap A B = [] ∧ Divide_Bitmap A B = []) := by
  refine ⟨blendLoop_length addPixel A B, blendLoop_length mulPixel A B,
    blendLoop_length divPixel A B, ?_⟩
  intro h
  have hlen : ¬(0 < A.length ∧ 0 < B.length) := by
    rcases h with h | h <;> subst h <;> simp
  unfold Add_Bitmap Multiply_Bitmap Divide_Bitmap
  rw [if_neg hlen, if_neg hlen, if_neg hlen]
  exact ⟨rfl, rfl, rfl⟩

/-- C5 (witness).  The length law and the empty-input law evaluated at
concrete bitmaps, the latter with an empty left input. -/
theorem c5_blend_lengths_witness :
    ((Add_Bitmap [⟨1, 2, 3, 4⟩, ⟨5, 6, 7, 8⟩] [⟨9, 9, 9, 9⟩]).length = min 2 1) ∧
    (Add_Bitmap [] [⟨9, 9, 9, 9⟩] = [] ∧ Multiply_Bitmap [] [⟨9, 9, 9, 9⟩] = [] ∧
     Divide_Bitmap [] [⟨9, 9, 9, 9⟩] = []) :=
  ⟨(c5_blend_lengths [⟨1, 2, 3, 4⟩, ⟨5, 6, 7, 8⟩] [⟨9, 9, 9, 9⟩]).1,
   (c5_blend_lengths [] [⟨9, 9, 9, 9⟩]).2.2.2 (Or.inl rfl)⟩

/-- C7.  Counterexample: Add_Bitmap against the same-length all-zero bitmap
is not the identity.  On the single pixel (10,20,30,255) the alphas 255 and
0 differ, so `(A==B)==0` holds and the special case zeroes the pixel. -/
theorem c7_identity_counterexample :
    Add_Bitmap [⟨10, 20, 30, 255⟩]
        (List.replicate (List.length [(⟨10, 20, 30, 255⟩ : FColor)]) ⟨0, 0, 0, 0⟩)
      ≠ [⟨10, 20, 30, 255⟩] := by
  decide

/-- C7 (amended).  The identity laws hold only on restricted pixels:
Add_Bitmap(A, allZero) = A when every pixel of A has alpha 0 (for a pixel
with nonzero alpha the inverted special case replaces it by (0,0,0,0));
Multiply_Bitmap(A, allOnes) = A when every R, G, B channel of every pixel
of A is 0 or 255 (those are the fixed points of the sRGB-to-linear /
linear-to-byte round trip; alpha is always preserved). -/
theorem c7_identity_amended :
    (∀ A : List FColor, (∀ p ∈ A, p.InByte ∧ p.a = 0) →
      Add_Bitmap A (List.replicate A.length ⟨0, 0, 0, 0⟩) = A) ∧
    (∀ A : List FColor, (∀ p ∈ A, (p.r = 0 ∨ p.r = 255) ∧ (p.g = 0 ∨ p.g = 255) ∧
        (p.b = 0 ∨ p.b = 255) ∧ p.a ≤ 255) →
      Multiply_Bitmap A (List.replicate A.length ⟨255, 255, 255, 255⟩) = A) := by
  constructor
  · intro A hA
    rw [Add_Bitmap_eq_zipWith, zipWith_replicate_len]
    exact map_id_of_mem (fun p hp => addPixel_zeroId p (hA p hp).1 (hA p hp).2)
  · intro A hA
    rw [Multiply_Bitmap_eq_zipWith, zipWith_replicate_len]
    exact map_id_of_mem (fun p hp =>
      mulPixel_onesId p (hA p hp).1 (hA p hp).2.1 (hA p hp).2.2.1 (hA p hp).2.2.2)

/-- C7 (witness).  Both restricted identities evaluated at concrete
one-pixel bitmaps. -/
theorem c7_identity_witness :
    (∀ p ∈ [(⟨3, 4, 5, 0⟩ : FColor)], p.InByte ∧ p.a = 0) ∧
    Add_Bitmap [⟨3, 4, 5, 0⟩] (List.replicate 1 ⟨0, 0, 0, 0⟩) = [⟨3, 4, 5, 0⟩] ∧
    Multiply_Bitmap [⟨0, 255, 0, 200⟩] (List.replicate 1 ⟨255, 255, 255, 255⟩)
      = [⟨0, 255, 0, 200⟩] :=
  ⟨by decide, c7_identity_amended.1 [⟨3, 4, 5, 0⟩] (by decide),
    c7_identity_amended.2 [⟨0, 255, 0, 200⟩] (by decide)⟩

/-- The R, G, B division of Divide_Bitmap — FMath::Clamp(x/y, 0, 1) — always
comes out as a finite value in [0,1]: NaN (0/0) and +infinity (x/0, x>0)
fail both branch comparisons and are mapped to the upper bound 1, and
-infinity is mapped to the lower bound 0. -/
theorem efClamp_efDiv_fin (a b : ℚ) :
    ∃ q : ℚ, 0 ≤ q ∧ q ≤ 1 ∧ efClamp (efDiv a b) 0 1 = EFloat.fin q := by
  unfold efDiv
  by_cases hb : b = 0
  · rw [if_pos hb]
    by_cases ha : a = 0
    · exact ⟨1, by norm_num, by norm_num, by rw [if_pos ha]; rfl⟩
    · rw [if_neg ha]
      by_cases hpos : 0 < a
      · exact ⟨1, by norm_num, by norm_num, by rw [if_pos hpos]; rfl⟩
      · exact ⟨0, by norm_num, by norm_num, by rw [if_neg hpos]; rfl⟩
  · rw [if_neg hb]
    unfold efClamp efLt
    by_cases h0 : a / b < 0
    · refine ⟨0, by norm_num, by norm_num, ?_⟩
      simp [h0]
    · by_cases h1 : a / b < 1
      · refine ⟨a / b, not_lt.1 h0, le_of_lt h1, ?_⟩
        simp [h0, h1]
      · refine ⟨1, by norm_num, by norm_num, ?_⟩
        simp [h0, h1]

/-- Every pixel Divide_Bitmap can produce is a valid byte pixel: each
channel of divPixel passes through the double clamp into [0,1] and the
255.999-floor into [0,255]. -/
theorem divPixel_inByte (x y : FColor) : (divPixel x y).InByte := by
  unfold divPixel toFColorFalse FColor.InByte
  refine ⟨?_, ?_, ?_, ?_⟩ <;>
    exact floorByte_le_255 (qClamp_nonneg_le (by norm_num)).1
      (qClamp_nonneg_le (by norm_num)).2

/-- C4.  For every pair of bitmaps with a zero channel somewhere in B
within the common length, Divide_Bitmap produces only defined, clamped
8-bit pixels: no NaN or infinity survives, because FMath::Clamp's branch
structure maps NaN and +infinity to the upper bound (the zero-division
policy of this code is thus "output channel 255") and -infinity to 0. -/
theorem c4_divide_defined (A B : List FColor)
    (h : ∃ i, i < min A.length B.length ∧
      ((B.getD i ⟨1, 1, 1, 1⟩).r = 0 ∨ (B.getD i ⟨1, 1, 1, 1⟩).g = 0 ∨
       (B.getD i ⟨1, 1, 1, 1⟩).b = 0 ∨ (B.getD i ⟨1, 1, 1, 1⟩).a = 0)) :
    (∀ p ∈ Divide_Bitmap A B, p.InByte) ∧
    (∀ a b : ℚ, ∃ q : ℚ, 0 ≤ q ∧ q ≤ 1 ∧ efClamp (efDiv a b) 0 1 = EFloat.fin q) := by
  refine ⟨?_, efClamp_efDiv_fin⟩
  intro p hp
  rw [Divide_Bitmap_eq_zipWith] at hp
  obtain ⟨x, y, rfl⟩ := mem_zipWith_imp hp
  exact divPixel_inByte x y

/-- C4 (witness).  The all-zero divided by all-zero one-pixel bitmaps: the
first output pixel is a valid byte pixel, and the clamped 0/0 channel is
the finite value the policy prescribes. -/
theorem c4_divide_defined_witness :
    ((Divide_Bitmap [⟨0, 0, 0, 0⟩] [⟨0, 0, 0, 0⟩]).getD 0 ⟨0, 0, 0, 0⟩).InByte ∧
    (∃ q : ℚ, 0 ≤ q ∧ q ≤ 1 ∧ efClamp (efDiv 0 0) 0 1 = EFloat.fin q) := by
  have hl : 0 < (Divide_Bitmap [⟨0, 0, 0, 0⟩] [⟨0, 0, 0, 0⟩]).length := by
    rw [Divide_Bitmap_eq_zipWith]
    simp
  refine ⟨?_, (c4_divide_defined [⟨0, 0, 0, 0⟩] [⟨0, 0, 0, 0⟩]
    ⟨0, by decide, by decide⟩).2 0 0⟩
  rw [List.getD_eq_getElem _ _ hl]
  exact (c4_divide_defined [⟨0, 0, 0, 0⟩] [⟨0, 0, 0, 0⟩] ⟨0, by decide, by decide⟩).1 _
    (List.getElem_mem (l := Divide_Bitmap [⟨0, 0, 0, 0⟩] [⟨0, 0, 0, 0⟩]) hl)

/-- One row of the ApplyBitmapFilter loop: starting from an output prefix
of length `y*W + a`, the clamped flat index equals the running length, so
EmplaceAt appends, and the row contributes its pixels in column order. -/
theorem applyFilter_inner (bmp : List FColor) (F : FBitmapFilter) (W H : Nat)
    (hlen : bmp.length = W * H) (y : Nat) (hy : y < H) :
    ∀ (n a : Nat) (s : List FColor), a + n ≤ W → s.length = y * W + a →
      List.foldl
        (fun out2 X =>
          (List.insertIdx
            (iClamp ((y : Int) * ((W : Nat) : Int) + ((X : Nat) : Int)) 0
              ((bmp.length : Int) - 1)).toNat
            (convPixel bmp ⟨(W : Int), (H : Int)⟩ F (X : Int) (y : Int)) out2))
        s (List.range' a n)
      = s ++ (List.range' a n).map
          (fun x : Nat => convPixel bmp ⟨(W : Int), (H : Int)⟩ F (x : Int) (y : Int)) := by
  intro n
  induction n with
  | zero =>
      intro a s _ _
      simp
  | succ n ih =>
      intro a s han hs
      rw [List.range'_succ, List.foldl_cons, List.map_cons]
      have hna : y * W + a < W * H := by
        rw [Nat.mul_comm W H]
        exact flatIdx_lt (by omega) hy
      have e1 : (y : Int) * ((W : Nat) : Int) + ((a : Nat) : Int)
          = ((y * W + a : Nat) : Int) := by
        push_cast
        ring
      have hidx : (iClamp ((y : Int) * ((W : Nat) : Int) + ((a : Nat) : Int)) 0
          ((bmp.length : Int) - 1)).toNat = y * W + a := by
        rw [e1, hlen]
        have hc : ((y * W + a : Nat) : Int) < ((W * H : Nat) : Int) := by
          exact_mod_cast hna
        rw [iClamp_eq_self (by positivity) (by omega)]
        exact Int.toNat_natCast _
      rw [hidx, ← hs, List.insertIdx_length_self]
      rw [ih (a + 1) (s ++ [convPixel bmp ⟨(W : Int), (H : Int)⟩ F (a : Int) (y : Int)])
        (by omega) (by simp [hs]; omega)]
      rw [List.append_assoc]
      rfl

/-- The full double loop of ApplyBitmapFilter builds the rows in order. -/
theorem applyFilter_outer (bmp : List FColor) (F : FBitmapFilter) (W H : Nat)
    (hlen : bmp.length = W * H) :
    ∀ (m b : Nat) (s : List FColor), b + m ≤ H → s.length = b * W →
      List.foldl
        (fun (out : List FColor) (Y : Nat) =>
          List.foldl
            (fun out2 X =>
              (List.insertIdx
                (iClamp (((Y : Nat) : Int) * ((W : Nat) : Int) + ((X : Nat) : Int)) 0
                  ((bmp.length : Int) - 1)).toNat
                (convPixel bmp ⟨(W : Int), (H : Int)⟩ F (X : Int) (Y : Int)) out2))
            out (List.range W))
        s (List.range' b m)
      = s ++ (List.range' b m).flatMap
          (fun y : Nat => (List.range W).map
            (fun x : Nat => convPixel bmp ⟨(W : Int), (H : Int)⟩ F (x : Int) (y : Int))) := by
  intro m
  induction m with
  | zero =>
      intro b s _ _
      simp
  | succ m ih =>
      intro b s hbm hs
      rw [List.range'_succ, List.foldl_cons, List.flatMap_cons]
      rw [List.range_eq_range' W]
      rw [applyFilter_inner bmp F W H hlen b (by omega) W 0 s (by omega)
        (by simpa using hs)]
      rw [← List.range_eq_range' W]
      rw [ih (b + 1) _ (by omega) (by simp [hs]; ring)]
      rw [List.append_assoc]

/-- ApplyBitmapFilter, on a bitmap whose length matches the image size, is
the row-major list of the per-coordinate convolution pixels. -/
theorem applyFilter_structure (bmp : List FColor) (W H : Nat) (F : FBitmapFilter)
    (hlen : bmp.length = W * H) :
    ApplyBitmapFilter bmp ⟨(W : Int), (H : Int)⟩ F
      = (List.range H).flatMap
          (fun y : Nat => (List.range W).map
            (fun x : Nat => convPixel bmp ⟨(W : Int), (H : Int)⟩ F (x : Int) (y : Int))) := by
  unfold ApplyBitmapFilter
  simp only [show (FImageSize.mk (W : Int) (H : Int)).X = ((W : Nat) : Int) from rfl,
    show (FImageSize.mk (W : Int) (H : Int)).Y = ((H : Nat) : Int) from rfl,
    Int.toNat_natCast]
  rw [List.range_eq_range' H]
  rw [applyFilter_outer bmp F W H hlen H 0 [] (by omega) (by simp)]
  rw [List.nil_append, ← List.range_eq_range']

/-- Indexing a row-major grid built by flatMap/map: entry `y*W + x` of the
flattened rows is the (x)-th entry of the (y)-th row. -/
theorem getD_grid (g : Nat → Nat → FColor) (d : FColor) (W : Nat) :
    ∀ (ys : List Nat) (y x : Nat), y < ys.length → x < W →
      ((ys.flatMap (fun yy : Nat => (List.range W).map (g yy))).getD (y * W + x) d)
        = g (ys.getD y 0) x := by
  intro ys
  induction ys with
  | nil =>
      intro y x hy _
      exact absurd hy (Nat.not_lt_zero y)
  | cons y0 ys ih =>
      intro y x hy hx
      rw [List.flatMap_cons]
      cases y with
      | zero =>
          rw [Nat.zero_mul, Nat.zero_add,
            List.getD_append _ _ _ _ (by simpa using hx),
            List.getD_eq_getElem _ _ (by simpa using hx),
            List.getElem_map, List.getElem_range]
          rfl
      | succ y' =>
          have he : (y' + 1) * W + x = W + (y' * W + x) := by ring
          have hlen : (List.map (g y0) (List.range W)).length = W := by simp
          rw [he, List.getD_append_right _ _ _ _ (by omega), hlen,
            Nat.add_sub_cancel_left]
          exact ih y' x (Nat.lt_of_succ_lt_succ hy) hx

/-- C10.  When the input length matches Size.X*Size.Y (both positive), the
output of ApplyBitmapFilter has exactly Size.X*Size.Y pixels and the pixel
at flat index y*Size.X + x is the one computed for coordinate (x, y): the
clamped EmplaceAt index always equals the running output length, so the
insertion appends row-major. -/
theorem c10_filter_shape (bmp : List FColor) (W H : Nat) (F : FBitmapFilter)
    (hW : 0 < W) (hH : 0 < H) (hlen : bmp.length = W * H) :
    (ApplyBitmapFilter bmp ⟨(W : Int), (H : Int)⟩ F).length = W * H ∧
    ∀ x y : Nat, x < W → y < H →
      (ApplyBitmapFilter bmp ⟨(W : Int), (H : Int)⟩ F).getD (y * W + x) ⟨0, 0, 0, 0⟩
        = convPixel bmp ⟨(W : Int), (H : Int)⟩ F (x : Int) (y : Int) := by
  rw [applyFilter_structure bmp W H F hlen]
  constructor
  · rw [List.length_flatMap]
    have : List.map (List.length ∘ fun y : Nat =>
        (List.range W).map (fun x : Nat =>
          convPixel bmp ⟨(W : Int), (H : Int)⟩ F (x : Int) (y : Int)))
        (List.range H) = List.map (fun _ => W) (List.range H) := by
      apply List.map_congr_left
      intro a _
      simp
    rw [this, List.map_const', List.sum_replicate, smul_eq_mul]
    simp [Nat.mul_comm]
  · intro x y hx hy
    rw [getD_grid _ _ W (List.range H) y x (by simpa using hy) hx]
    rw [List.getD_eq_getElem _ _ (by simpa using hy), List.getElem_range]

/-- C10 (witness).  The shape law evaluated on a concrete 2-by-1 bitmap and
the box-blur filter. -/
theorem c10_filter_shape_witness :
    ((ApplyBitmapFilter [⟨1, 2, 3, 4⟩, ⟨5, 6, 7, 8⟩] ⟨(2 : Int), (1 : Int)⟩
        (GetBitmapFilter .BoxBlur false .RGBA)).length = 2 * 1) ∧
    (ApplyBitmapFilter [⟨1, 2, 3, 4⟩, ⟨5, 6, 7, 8⟩] ⟨(2 : Int), (1 : Int)⟩
        (GetBitmapFilter .BoxBlur false .RGBA)).getD (0 * 2 + 1) ⟨0, 0, 0, 0⟩
      = convPixel [⟨1, 2, 3, 4⟩, ⟨5, 6, 7, 8⟩] ⟨(2 : Int), (1 : Int)⟩
          (GetBitmapFilter .BoxBlur false .RGBA) (1 : Int) (0 : Int) :=
  ⟨(c10_filter_shape [⟨1, 2, 3, 4⟩, ⟨5, 6, 7, 8⟩] 2 1 (GetBitmapFilter .BoxBlur false .RGBA)
      (by decide) (by decide) (by decide)).1,
   (c10_filter_shape [⟨1, 2, 3, 4⟩, ⟨5, 6, 7, 8⟩] 2 1 (GetBitmapFilter .BoxBlur false .RGBA)
      (by decide) (by decide) (by decide)).2 1 0 (by decide) (by decide)⟩

theorem byteOfFloat_eval {q : ℚ} {n : Nat} (h0 : 0 ≤ q) (hfl : ⌊q⌋ = (n : Int))
    (hn : n ≤ 255) : byteOfFloat q = n := by
  unfold byteOfFloat ratTrunc
  rw [if_neg (not_lt.2 h0), hfl, Int.emod_eq_of_lt (by omega) (by omega),
    Int.toNat_natCast]

/-- One box-blur accumulation step on a channel value of 255: the float
increment is 255*0.11111111 = 28.33333305 and the uint8 store truncates it
to an increment of 28. -/
theorem boxStep (t : Nat) (ht : t ≤ 227) :
    accumStep t 255 1 0.11111111 0 = t + 28 := by
  unfold accumStep
  have he : (((255 : Nat) : ℚ)) * ((1 : ℚ) * 0.11111111) + 0 = 28.33333305 := by
    norm_num
  apply byteOfFloat_eval (by positivity) ?_ (by omega)
  rw [he, add_comm, Int.floor_add_nat, show ⌊(28.33333305 : ℚ)⌋ = 28 from by norm_num]
  omega

/-- Every weight access of the box-blur kernel reads the weight 1. -/
theorem boxWeight (a b : Nat) :
    readWeight (GetBitmapFilter .BoxBlur false .RGBA).Filter
      (nFilterIndex (GetBitmapFilter .BoxBlur false .RGBA).Filter.length
        (GetBitmapFilter .BoxBlur false .RGBA).Size.X (a : Int) (b : Int)) = 1 := by
  unfold readWeight nFilterIndex
  rw [show (((GetBitmapFilter .BoxBlur false .RGBA).Filter.length : Nat) : Int) - 1
      = 8 from by norm_num [show (GetBitmapFilter .BoxBlur false .RGBA).Filter.length
        = 9 from rfl]]
  have hb := @iClamp_bounds
    ((b : Int) * (GetBitmapFilter .BoxBlur false .RGBA).Size.X + (a : Int))
    0 8 (by omega)
  rw [if_pos hb.1]
  have hk : (iClamp ((b : Int) * (GetBitmapFilter .BoxBlur false .RGBA).Size.X
      + (a : Int)) 0 8).toNat < 9 := by omega
  set k := (iClamp ((b : Int) * (GetBitmapFilter .BoxBlur false .RGBA).Size.X
      + (a : Int)) 0 8).toNat with hkdef
  interval_cases k <;> rfl

/-- The box-blur kernel applied to a uniform 255 channel yields 252: nine
truncating uint8 accumulations of 28.33333305. -/
theorem uniformConvPixel_box_255 :
    uniformConvPixel ⟨255, 255, 255, 255⟩ (GetBitmapFilter .BoxBlur false .RGBA)
      = ⟨252, 252, 252, 255⟩ := by
  have e0 : accumStep 0 255 1 0.11111111 0 = 28 := by simpa using boxStep 0 (by omega)
  have e1 : accumStep 28 255 1 0.11111111 0 = 56 := by simpa using boxStep 28 (by omega)
  have e2 : accumStep 56 255 1 0.11111111 0 = 84 := by simpa using boxStep 56 (by omega)
  have e3 : accumStep 84 255 1 0.11111111 0 = 112 := by
    simpa using boxStep 84 (by omega)
  have e4 : accumStep 112 255 1 0.11111111 0 = 140 := by
    simpa using boxStep 112 (by omega)
  have e5 : accumStep 140 255 1 0.11111111 0 = 168 := by
    simpa using boxStep 140 (by omega)
  have e6 : accumStep 168 255 1 0.11111111 0 = 196 := by
    simpa using boxStep 168 (by omega)
  have e7 : accumStep 196 255 1 0.11111111 0 = 224 := by
    simpa using boxStep 196 (by omega)
  have e8 : accumStep 224 255 1 0.11111111 0 = 252 := by
    simpa using boxStep 224 (by omega)
  simp only [uniformConvPixel,
    show (GetBitmapFilter .BoxBlur false .RGBA).Size.Y.toNat = 3 from rfl,
    show (GetBitmapFilter .BoxBlur false .RGBA).Size.X.toNat = 3 from rfl,
    show List.range 3 = [0, 1, 2] from rfl, List.foldl_cons, List.foldl_nil,
    boxWeight,
    show (GetBitmapFilter .BoxBlur false .RGBA).Factor = 0.11111111 from rfl,
    show (GetBitmapFilter .BoxBlur false .RGBA).Bias = 0 from rfl,
    e0, e1, e2, e3, e4, e5, e6, e7, e8]
  decide

/-- On a uniform bitmap the kernel accumulation is independent of the pixel
position: every clamped tap reads the same colour. -/
theorem convAccum_uniform (W H : Nat) (c : FColor) (F : FBitmapFilter)
    (SizeX : Int) (X Y : Int) (hN : 0 < W * H) :
    convAccum (List.replicate (W * H) c) SizeX F X Y
      = (List.range F.Size.Y.toNat).foldl
          (fun (st : Nat × Nat × Nat) (fy : Nat) =>
            (List.range F.Size.X.toNat).foldl
              (fun (st2 : Nat × Nat × Nat) (fx : Nat) =>
                let w := readWeight F.Filter
                  (nFilterIndex F.Filter.length F.Size.X (fx : Int) (fy : Int))
                ( accumStep st2.1 c.r w F.Factor F.Bias,
                  accumStep st2.2.1 c.g w F.Factor F.Bias,
                  accumStep st2.2.2 c.b w F.Factor F.Bias ))
              st)
          (0, 0, 0) := by
  unfold convAccum
  apply List.foldl_ext
  intro st fy _
  apply List.foldl_ext
  intro st2 fx _
  have hread : readPixel (List.replicate (W * H) c)
      (nPixelIndex (List.replicate (W * H) c).length SizeX X Y (fx : Int) (fy : Int)
        F.Size.X F.Size.Y) = c := by
    unfold nPixelIndex
    have h01 : (0 : Int) ≤ (((List.replicate (W * H) c).length : Nat) : Int) - 1 := by
      simp only [List.length_replicate]
      omega
    have hb := iClamp_bounds
      (x := ((Y + (fy : Int) - Int.tdiv F.Size.Y 2) * SizeX
        + (X + (fx : Int) - Int.tdiv F.Size.X 2))) h01
    refine readPixel_replicate hb.1 ?_
    have h2 := hb.2
    simp only [List.length_replicate] at h2 ⊢
    omega
  rw [hread]

/-- On a uniform bitmap the whole convolution pixel is independent of the
pixel position. -/
theorem convPixel_uniform (W H : Nat) (c : FColor) (F : FBitmapFilter)
    (X Y : Int) (hN : 0 < W * H) :
    convPixel (List.replicate (W * H) c) ⟨(W : Int), (H : Int)⟩ F X Y
      = uniformConvPixel c F := by
  have hread : readPixel (List.replicate (W * H) c)
      (iClamp (Y * (FImageSize.mk (W : Int) (H : Int)).X + X) 0
        (((List.replicate (W * H) c).length : Int) - 1)) = c := by
    have h01 : (0 : Int) ≤ (((List.replicate (W * H) c).length : Nat) : Int) - 1 := by
      simp only [List.length_replicate]
      omega
    have hb := iClamp_bounds
      (x := Y * (FImageSize.mk (W : Int) (H : Int)).X + X) h01
    refine readPixel_replicate hb.1 ?_
    have h2 := hb.2
    simp only [List.length_replicate] at h2 ⊢
    omega
  simp only [convPixel, uniformConvPixel]
  rw [convAccum_uniform W H c F _ X Y hN, hread]

theorem flatMap_const_replicate (u : FColor) (W : Nat) :
    ∀ l : List Nat, l.flatMap (fun _ => List.replicate W u)
      = List.replicate (l.length * W) u := by
  intro l
  induction l with
  | nil => simp
  | cons a t ih =>
      rw [List.flatMap_cons, ih, List.length_cons,
        show (t.length + 1) * W = W + t.length * W from by ring, List.replicate_add]

theorem flatMap_congr_fc {f g : Nat → List FColor} :
    ∀ l : List Nat, (∀ a ∈ l, f a = g a) → l.flatMap f = l.flatMap g := by
  intro l
  induction l with
  | nil => intro _; rfl
  | cons a t ih =>
      intro h
      rw [List.flatMap_cons, List.flatMap_cons, h a (List.mem_cons_self a t),
        ih (fun b hb => h b (List.mem_cons_of_mem a hb))]

/-- ApplyBitmapFilter maps uniform bitmaps to uniform bitmaps. -/
theorem applyFilter_uniform (W H : Nat) (c : FColor) (F : FBitmapFilter)
    (hW : 0 < W) (hH : 0 < H) :
    ApplyBitmapFilter (List.replicate (W * H) c) ⟨(W : Int), (H : Int)⟩ F
      = List.replicate (W * H) (uniformConvPixel c F) := by
  rw [applyFilter_structure _ W H F (by simp)]
  have hrow : ∀ y : Nat, (List.range W).map
      (fun x : Nat => convPixel (List.replicate (W * H) c) ⟨(W : Int), (H : Int)⟩ F
        (x : Int) (y : Int))
      = List.replicate W (uniformConvPixel c F) := by
    intro y
    have hmc : List.map
        (fun x : Nat => convPixel (List.replicate (W * H) c) ⟨(W : Int), (H : Int)⟩ F
          (x : Int) (y : Int)) (List.range W)
        = List.map (fun _ : Nat => uniformConvPixel c F) (List.range W) :=
      List.map_congr_left
        (fun x _ => convPixel_uniform W H c F (x : Int) (y : Int) (by positivity))
    rw [hmc, List.map_const']
    simp
  rw [flatMap_congr_fc (List.range H) (fun y _ => hrow y),
    flatMap_const_replicate, List.length_range, Nat.mul_comm]

/-- C6.  Counterexample: box blur is not flat-field invariant — on the
uniform 2x2 bitmap of (255,255,255,255) every output pixel is
(252,252,252,255), because each of the nine kernel taps is accumulated
into a uint8 temporary with truncation (nine truncations of 28.33333305
give 252, not 255). -/
theorem c6_boxblur_counterexample :
    ApplyBitmapFilter (List.replicate 4 ⟨255, 255, 255, 255⟩) ⟨(2 : Int), (2 : Int)⟩
        (GetBitmapFilter .BoxBlur false .RGBA)
      ≠ List.replicate 4 ⟨255, 255, 255, 255⟩ := by
  intro h
  have hu := applyFilter_uniform 2 2 ⟨255, 255, 255, 255⟩
    (GetBitmapFilter .BoxBlur false .RGBA) (by omega) (by omega)
  simp only [show (2 * 2 : Nat) = 4 from rfl,
    show ((2 : Nat) : Int) = (2 : Int) from rfl] at hu
  rw [hu, uniformConvPixel_box_255] at h
  exact absurd h (by decide)

/-- C6 (amended).  ApplyBitmapFilter with the BoxBlur kernel does map every
uniform bitmap to a uniform bitmap (all output pixels equal), but the
common output colour is the nine-step truncating uint8 accumulation of the
input colour, which in general differs from the input (255 becomes 252). -/
theorem c6_boxblur_amended (W H : Nat) (c : FColor) (hW : 0 < W) (hH : 0 < H) :
    ApplyBitmapFilter (List.replicate (W * H) c) ⟨(W : Int), (H : Int)⟩
        (GetBitmapFilter .BoxBlur false .RGBA)
      = List.replicate (W * H)
          (uniformConvPixel c (GetBitmapFilter .BoxBlur false .RGBA)) ∧
    uniformConvPixel ⟨255, 255, 255, 255⟩ (GetBitmapFilter .BoxBlur false .RGBA)
      = ⟨252, 252, 252, 255⟩ :=
  ⟨applyFilter_uniform W H c (GetBitmapFilter .BoxBlur false .RGBA) hW hH,
   uniformConvPixel_box_255⟩

/-- C6 (witness).  The amended statement applied to uniform 2x2 bitmaps. -/
theorem c6_boxblur_witness :
    (0 < 2) ∧
    (ApplyBitmapFilter (List.replicate 4 ⟨7, 7, 7, 7⟩) ⟨(2 : Int), (2 : Int)⟩
        (GetBitmapFilter .BoxBlur false .RGBA)
      = List.replicate 4
          (uniformConvPixel ⟨7, 7, 7, 7⟩ (GetBitmapFilter .BoxBlur false .RGBA))) ∧
    uniformConvPixel ⟨255, 255, 255, 255⟩ (GetBitmapFilter .BoxBlur false .RGBA)
      = ⟨252, 252, 252, 255⟩ :=
  ⟨by decide, (c6_boxblur_amended 2 2 ⟨7, 7, 7, 7⟩ (by decide) (by decide)).1,
   (c6_boxblur_amended 2 2 ⟨7, 7, 7, 7⟩ (by decide) (by decide)).2⟩

/-- C9.  Counterexample: the weight-index policy is not always a clamp
into [0, weights.length-1] — for a filter declaring a 3x3 kernel with an
empty weight list, `Clamp(i, 0, Num-1)` has upper bound -1 and every
kernel cell accesses the weight sequence at index -1, an out-of-bounds
read. -/
theorem c9_weight_clamp_counterexample :
    (-1 : Int) ∈ weightIndicesAccessed ⟨⟨3, 3⟩, [], 1, 0, .RGB⟩ ∧
    ¬(0 ≤ (-1 : Int)) := by
  constructor
  · decide
  · decide

/-- C9 (amended).  For every filter with a NONEMPTY weight list (of any
length, matching Size.X*Size.Y or not), every weight access made by the
kernel loops uses an index clamped into [0, weights.length-1], and a kernel
cell whose natural index runs past the end of the weight list reads the
last valid weight. -/
theorem c9_weight_clamp_amended (F : FBitmapFilter) (hne : F.Filter ≠ []) :
    (∀ i ∈ weightIndicesAccessed F, 0 ≤ i ∧ i < (F.Filter.length : Int)) ∧
    (∀ fx fy : Int, (F.Filter.length : Int) - 1 ≤ fy * F.Size.X + fx →
      nFilterIndex F.Filter.length F.Size.X fx fy = (F.Filter.length : Int) - 1) := by
  have hlen : 1 ≤ F.Filter.length := by
    cases hF : F.Filter with
    | nil => exact absurd hF hne
    | cons x xs => simp
  constructor
  · intro i hi
    unfold weightIndicesAccessed at hi
    obtain ⟨fy, _, hfy⟩ := List.mem_flatMap.1 hi
    obtain ⟨fx, _, hfx⟩ := List.mem_map.1 hfy
    subst hfx
    unfold nFilterIndex
    have hb := @iClamp_bounds ((fy : Int) * F.Size.X + (fx : Int))
      0 ((F.Filter.length : Int) - 1) (by omega)
    exact ⟨hb.1, by omega⟩
  · intro fx fy hpast
    unfold nFilterIndex iClamp
    rw [if_neg (by omega), if_neg (by omega)]

/-- C9 (witness).  The amended clamping policy applied to a 3x3 filter with
only two weights: the access for the last kernel cell (2,2) is the index
clamp(8, 0, 1) = 1 — in bounds, and equal to the last valid index. -/
theorem c9_weight_clamp_witness :
    ((0 : Int) ≤ nFilterIndex 2 3 2 2 ∧ nFilterIndex 2 3 2 2 < (2 : Int)) ∧
    nFilterIndex 2 3 2 2 = (2 : Int) - 1 :=
  ⟨(c9_weight_clamp_amended ⟨⟨3, 3⟩, [2, 5], 1, 0, .RGB⟩ (by decide)).1
      (nFilterIndex 2 3 2 2) (by decide),
   (c9_weight_clamp_amended ⟨⟨3, 3⟩, [2, 5], 1, 0, .RGB⟩ (by decide)).2 2 2 (by decide)⟩

/-- C8.  Add_Bitmap is commutative for same-length inputs (in fact for all
inputs): the special-case condition compares the two alphas symmetrically
and the generic branch is a per-channel clamped sum. -/
theorem c8_add_comm (A B : List FColor) (h : A.length = B.length) :
    Add_Bitmap A B = Add_Bitmap B A := by
  unfold Add_Bitmap
  by_cases hc : 0 < A.length ∧ 0 < B.length
  · rw [if_pos hc, if_pos ⟨hc.2, hc.1⟩]
    exact List.zipWith_comm_of_comm addPixel addPixel_comm A B
  · rw [if_neg hc, if_neg (fun hh => hc ⟨hh.2, hh.1⟩)]

/-- C8 (witness).  Commutativity evaluated at a concrete same-length pair
that exercises both branches of addPixel. -/
theorem c8_add_comm_witness :
    [(⟨1, 2, 3, 0⟩ : FColor), ⟨200, 200, 200, 9⟩].length =
      [(⟨7, 8, 9, 4⟩ : FColor), ⟨100, 100, 100, 9⟩].length ∧
    Add_Bitmap [⟨1, 2, 3, 0⟩, ⟨200, 200, 200, 9⟩] [⟨7, 8, 9, 4⟩, ⟨100, 100, 100, 9⟩] =
      Add_Bitmap [⟨7, 8, 9, 4⟩, ⟨100, 100, 100, 9⟩] [⟨1, 2, 3, 0⟩, ⟨200, 200, 200, 9⟩] :=
  ⟨rfl, c8_add_comm _ _ rfl⟩

end ImageIO
